import Mathlib

/-!
Verification of the `trie_again` trie core (`src/native/trie_hard_native/src/trie.rs`)
and its boundary adapter (`src/native/trie_again_native/src/lib.rs`).

Modelling choices:
* A Rust `char` is modelled as a `Nat` codepoint.  `charWidth` is `char::len_utf8`
  (1 for `< 0x80`, 2 for `< 0x800`, 3 for `< 0x10000`, 4 otherwise), and a Rust
  `&str` is a `List Nat` of codepoints whose `str::len` (byte length) is `byteLen`.
* `HashMap<char, TrieNode<T>>` is modelled as an association list `Children V`
  (first-match lookup, in-place replace, first-match removal, append on fresh
  insert).  `HashMap` keys are unique by construction; the predicate
  `TrieNode.nodupKeys` states that uniqueness for the model.
* Rust panics (`Option::unwrap` on `None` in `delete_recursive`) are modelled by
  returning `none` from the embedded function: `delete` has type
  `TrieNode V → List Nat → Option (TrieNode V)`, with `none` meaning the call
  panics instead of completing.
-/

universe u

mutual
/-- One node of the trie: `TrieNode { value: Option<T>, children: HashMap<char, TrieNode<T>> }`.
`Children` is the association list modelling the `HashMap`. -/
inductive TrieNode (V : Type u) : Type u where
  | mk (value : Option V) (children : Children V) : TrieNode V

/-- The children mapping of a node: a list of `(char, TrieNode)` bindings. -/
inductive Children (V : Type u) : Type u where
  | nil : Children V
  | cons (c : Nat) (node : TrieNode V) (rest : Children V) : Children V
end

/-- The `value` field of a node. -/
def TrieNode.value {V : Type u} : TrieNode V → Option V
  | .mk v _ => v

/-- The `children` field of a node. -/
def TrieNode.children {V : Type u} : TrieNode V → Children V
  | .mk _ cs => cs

/-- `TrieNode::new()`: a value-less, childless node; also the root of `Trie::new()`. -/
def TrieNode.new {V : Type u} : TrieNode V := .mk none .nil

/-- `HashMap::get(&ch)`: first binding for `c`. -/
def Children.find {V : Type u} (c : Nat) : Children V → Option (TrieNode V)
  | .nil => none
  | .cons k n rest => if k = c then some n else rest.find c

/-- Store `n` under key `c`: replace the existing binding in place if present
(`HashMap` updates through `get_mut` / `entry`), otherwise append a fresh binding. -/
def Children.set {V : Type u} (c : Nat) (n : TrieNode V) : Children V → Children V
  | .nil => .cons c n .nil
  | .cons k m rest => if k = c then .cons k n rest else .cons k m (rest.set c n)

/-- `HashMap::remove(&ch)`: drop the binding for `c`. -/
def Children.remove {V : Type u} (c : Nat) : Children V → Children V
  | .nil => .nil
  | .cons k m rest => if k = c then rest else .cons k m (rest.remove c)

/-- `HashMap::is_empty()`. -/
def Children.isEmpty {V : Type u} : Children V → Bool
  | .nil => true
  | .cons _ _ _ => false

/-- The list of keys bound in a children mapping. -/
def Children.keys {V : Type u} : Children V → List Nat
  | .nil => []
  | .cons k _ rest => k :: rest.keys

/-- `char::len_utf8()` for a codepoint. -/
def charWidth (c : Nat) : Nat :=
  if c < 0x80 then 1 else if c < 0x800 then 2 else if c < 0x10000 then 3 else 4

/-- `str::len()`: the UTF-8 byte length of a key. -/
def byteLen (key : List Nat) : Nat := (key.map charWidth).sum

/-- `Trie::insert(key, value)`: walk the key's chars, creating missing children
with `TrieNode::new()`, and set the terminal node's value. -/
def TrieNode.insert {V : Type u} : TrieNode V → List Nat → V → TrieNode V
  | .mk _ cs, [], v => .mk (some v) cs
  | .mk val cs, c :: rest, v =>
      .mk val (cs.set c (TrieNode.insert ((cs.find c).getD TrieNode.new) rest v))

/-- `Trie::get(key)`: walk the key's chars; `none` when the path breaks or the
terminal node has no value. -/
def TrieNode.get {V : Type u} : TrieNode V → List Nat → Option V
  | n, [] => n.value
  | n, c :: rest =>
      match n.children.find c with
      | some child => child.get rest
      | none => none

/-- `Trie::prefix_search(prefix)`: true iff the char path exists. -/
def TrieNode.prefixSearch {V : Type u} : TrieNode V → List Nat → Bool
  | _, [] => true
  | n, c :: rest =>
      match n.children.find c with
      | some child => child.prefixSearch rest
      | none => false

/-- The shared descent loop of `prefix_search` and `auto_complete`: the node
reached by consuming the prefix's chars, if the path exists. -/
def TrieNode.walk {V : Type u} : TrieNode V → List Nat → Option (TrieNode V)
  | n, [] => some n
  | n, c :: rest =>
      match n.children.find c with
      | some child => child.walk rest
      | none => none

/-- `Trie::delete_recursive(node, key, index)`.  The index is compared against the
BYTE length `key.len()` while `key.chars().nth(index)` indexes CHARS; when the
chars run out before the byte length, the source's `.unwrap()` panics, modelled
as `none`.  The returned `Bool` is the "unlink this child" signal. -/
def TrieNode.deleteRecursive {V : Type u} (node : TrieNode V) (key : List Nat)
    (index : Nat) : Option (TrieNode V × Bool) :=
  if index = byteLen key then
    if node.value.isSome then
      some (.mk none node.children, node.children.isEmpty)
    else
      some (node, false)
  else
    match h : key.get? index with
    | none => none
    | some ch =>
      match node.children.find ch with
      | some child =>
        match TrieNode.deleteRecursive child key (index + 1) with
        | none => none
        | some (child', shouldDelete) =>
          let cs' := if shouldDelete then node.children.remove ch
                     else node.children.set ch child'
          some (.mk node.value cs', node.value.isNone && cs'.isEmpty)
      | none => some (node, node.value.isNone && node.children.isEmpty)
termination_by key.length - index
decreasing_by
  have hlt : index < key.length := List.get?_eq_some.mp h |>.1
  omega

/-- `Trie::delete(key)`: run `delete_recursive` at the root, discarding the
unlink signal (the root is never removed).  `none` models a panic. -/
def TrieNode.delete {V : Type u} (node : TrieNode V) (key : List Nat) :
    Option (TrieNode V) :=
  (node.deleteRecursive key 0).map Prod.fst

mutual
/-- `Trie::collect_words(node, prefix, results, max_results)`: depth-first
accumulation of complete keys, stopping once `results` holds `max_results`. -/
def TrieNode.collectWords {V : Type u} (node : TrieNode V) (pre : List Nat)
    (results : List (List Nat)) (maxResults : Nat) : List (List Nat) :=
  match node with
  | .mk val cs =>
    if maxResults ≤ results.length then results
    else
      let results' := if val.isSome then results ++ [pre] else results
      Children.collectChildren cs pre results' maxResults

/-- The `for (ch, child) in &node.children` loop of `collect_words`, with its
per-iteration `break` once the cap is reached. -/
def Children.collectChildren {V : Type u} (cs : Children V) (pre : List Nat)
    (results : List (List Nat)) (maxResults : Nat) : List (List Nat) :=
  match cs with
  | .nil => results
  | .cons c child rest =>
      if maxResults ≤ results.length then results
      else
        Children.collectChildren rest pre
          (TrieNode.collectWords child (pre ++ [c]) results maxResults) maxResults
end

/-- `Trie::auto_complete(prefix, max_results)`: locate the prefix node, then
collect words from it; empty when the path is absent. -/
def TrieNode.autoComplete {V : Type u} (node : TrieNode V) (pre : List Nat)
    (maxResults : Nat) : List (List Nat) :=
  match node.walk pre with
  | some nd => nd.collectWords pre [] maxResults
  | none => []

/-- `Trie::add_word_list(words, value_mapper)`: insert each word with its mapped
value, in input order. -/
def TrieNode.addWordList {V : Type u} (node : TrieNode V) (words : List (List Nat))
    (f : List Nat → V) : TrieNode V :=
  words.foldl (fun t w => t.insert w (f w)) node

deriving instance DecidableEq for TrieNode

mutual
/-- `HashMap` keys are unique; this predicate transfers that guarantee to the
association-list model, at every node of a subtree. -/
def TrieNode.nodupKeys {V : Type u} : TrieNode V → Bool
  | .mk _ cs => cs.nodupKeysC

/-- Key-uniqueness of one children list, recursively in its subtrees. -/
def Children.nodupKeysC {V : Type u} : Children V → Bool
  | .nil => true
  | .cons c n rest => (rest.find c).isNone && n.nodupKeys && rest.nodupKeysC
end

mutual
/-- The spec's structural invariant at a non-root node: a present value or at
least one child, recursively in the subtree. -/
def TrieNode.wfNode {V : Type u} : TrieNode V → Bool
  | .mk val cs => (val.isSome || !cs.isEmpty) && cs.wfChildren

/-- The structural invariant for each node bound in a children list. -/
def Children.wfChildren {V : Type u} : Children V → Bool
  | .nil => true
  | .cons _ n rest => n.wfNode && rest.wfChildren
end

/-- The structural invariant at the root: the root itself is exempt (it may be
value-less and childless), all nodes below it satisfy `wfNode`. -/
def TrieNode.wfRoot {V : Type u} (t : TrieNode V) : Bool :=
  t.children.wfChildren

/-- A key of ASCII characters (every codepoint is one UTF-8 byte). -/
def allAscii (k : List Nat) : Bool := k.all (fun c => c < 0x80)

mutual
/-- Specification-side enumeration: all complete keys of a subtree, each the
accumulated path `pre` extended to a node with a present value. -/
def TrieNode.allWords {V : Type u} : TrieNode V → List Nat → List (List Nat)
  | .mk val cs, pre => (if val.isSome then [pre] else []) ++ cs.allWordsC pre

/-- `allWords` over a children list. -/
def Children.allWordsC {V : Type u} : Children V → List Nat → List (List Nat)
  | .nil, _ => []
  | .cons c n rest, pre => n.allWords (pre ++ [c]) ++ rest.allWordsC pre
end

mutual
/-- The number of nodes with a present value in a subtree. -/
def TrieNode.countValues {V : Type u} : TrieNode V → Nat
  | .mk val cs => (if val.isSome then 1 else 0) + cs.countValuesC

/-- `countValues` over a children list. -/
def Children.countValuesC {V : Type u} : Children V → Nat
  | .nil => 0
  | .cons _ n rest => n.countValues + rest.countValuesC
end

/-- The number of keys of the trie having the given prefix: the number of valued
nodes on the prefix's subtree (0 when the prefix path is absent). -/
def TrieNode.countCompletions {V : Type u} (t : TrieNode V) (pre : List Nat) : Nat :=
  match t.walk pre with
  | some nd => nd.countValues
  | none => 0

/-! ### Boundary adapter (`src/native/trie_again_native/src/lib.rs`)

Each NIF wraps the shared `Mutex<Trie<String>>`; the outcome of `Mutex::lock()`
is modelled as an explicit parameter: `some t` for a successfully acquired guard
over trie state `t`, `none` for a poisoned lock (`Err(_)`). -/

/-- The atoms the adapter returns to the host. -/
inductive Atom : Type where
  | ok : Atom
  | error : Atom
  | nil : Atom
  | notFound : Atom
deriving DecidableEq

/-- NIF `get`: `(ok, value)` on a hit, `(not_found, nil)` on a miss,
`(error, nil)` when the lock is poisoned. -/
def nifGet {V : Type u} (lock : Option (TrieNode V)) (key : List Nat) :
    Atom × Option V :=
  match lock with
  | some trie =>
      match trie.get key with
      | some v => (Atom.ok, some v)
      | none => (Atom.notFound, none)
  | none => (Atom.error, none)

/-- NIF `prefix_search`: `(ok, answer)` under the lock, `(error, false)` when the
lock is poisoned. -/
def nifPrefixSearch {V : Type u} (lock : Option (TrieNode V)) (pre : List Nat) :
    Atom × Bool :=
  match lock with
  | some trie => (Atom.ok, trie.prefixSearch pre)
  | none => (Atom.error, false)

/-- NIF `auto_complete`: `(ok, results)` under the lock, `(error, [])` when the
lock is poisoned. -/
def nifAutoComplete {V : Type u} (lock : Option (TrieNode V)) (pre : List Nat)
    (maxResults : Nat) : Atom × List (List Nat) :=
  match lock with
  | some trie => (Atom.ok, trie.autoComplete pre maxResults)
  | none => (Atom.error, [])

/-! ### Basic lemmas about the children model -/

/-- List-style induction over a children list, leaving the stored nodes opaque. -/
theorem Children.inductionOn {V : Type u} {motive : Children V → Prop}
    (base : motive .nil)
    (step : ∀ c n rest, motive rest → motive (.cons c n rest)) :
    ∀ cs : Children V, motive cs
  | .nil => base
  | .cons c n rest => step c n rest (Children.inductionOn base step rest)

theorem Children.find_set_self {V : Type u} (cs : Children V) (c : Nat)
    (n : TrieNode V) : (cs.set c n).find c = some n := by
  induction cs using Children.inductionOn with
  | base => simp [Children.set, Children.find]
  | step k m rest ih =>
    by_cases h : k = c <;> simp [Children.set, Children.find, h, ih]

theorem Children.set_find_eq {V : Type u} {cs : Children V} {c : Nat}
    {n : TrieNode V} (h : cs.find c = some n) : cs.set c n = cs := by
  induction cs using Children.inductionOn with
  | base => simp [Children.find] at h
  | step k m rest ih =>
    by_cases hk : k = c
    · subst hk
      simp only [Children.find, if_true, eq_self_iff_true, Option.some.injEq] at h
      simp [Children.set, h]
    · simp only [Children.find, if_neg hk] at h
      simp [Children.set, hk, ih h]

theorem Children.find_remove_self {V : Type u} {cs : Children V}
    (h : cs.nodupKeysC = true) (c : Nat) : (cs.remove c).find c = none := by
  induction cs using Children.inductionOn with
  | base => simp [Children.remove, Children.find]
  | step k m rest ih =>
    simp only [Children.nodupKeysC, Bool.and_eq_true, Option.isNone_iff_eq_none] at h
    obtain ⟨⟨hfind, _⟩, hrest⟩ := h
    by_cases hk : k = c
    · subst hk
      simpa [Children.remove] using hfind
    · simp [Children.remove, hk, Children.find, ih hrest]

theorem Children.remove_not_found {V : Type u} {cs : Children V} {c : Nat}
    (h : cs.find c = none) : cs.remove c = cs := by
  induction cs using Children.inductionOn with
  | base => simp [Children.remove]
  | step k m rest ih =>
    by_cases hk : k = c
    · simp [Children.find, hk] at h
    · simp only [Children.find, if_neg hk] at h
      simp [Children.remove, hk, ih h]

theorem Children.find_nodupKeys {V : Type u} {cs : Children V} {c : Nat}
    {child : TrieNode V} (h : cs.nodupKeysC = true)
    (hf : cs.find c = some child) : child.nodupKeys = true := by
  induction cs using Children.inductionOn with
  | base => simp [Children.find] at hf
  | step k m rest ih =>
    simp only [Children.nodupKeysC, Bool.and_eq_true] at h
    obtain ⟨⟨_, hm⟩, hrest⟩ := h
    by_cases hk : k = c
    · simp only [Children.find, if_pos hk, Option.some.injEq] at hf
      exact hf ▸ hm
    · simp only [Children.find, if_neg hk] at hf
      exact ih hrest hf

theorem Children.find_wfNode {V : Type u} {cs : Children V} {c : Nat}
    {child : TrieNode V} (h : cs.wfChildren = true)
    (hf : cs.find c = some child) : child.wfNode = true := by
  induction cs using Children.inductionOn with
  | base => simp [Children.find] at hf
  | step k m rest ih =>
    simp only [Children.wfChildren, Bool.and_eq_true] at h
    obtain ⟨hm, hrest⟩ := h
    by_cases hk : k = c
    · simp only [Children.find, if_pos hk, Option.some.injEq] at hf
      exact hf ▸ hm
    · simp only [Children.find, if_neg hk] at hf
      exact ih hrest hf

theorem Children.wfChildren_set {V : Type u} {cs : Children V} {c : Nat}
    {n : TrieNode V} (h : cs.wfChildren = true) (hn : n.wfNode = true) :
    (cs.set c n).wfChildren = true := by
  induction cs using Children.inductionOn with
  | base => simp [Children.set, Children.wfChildren, hn]
  | step k m rest ih =>
    simp only [Children.wfChildren, Bool.and_eq_true] at h
    obtain ⟨hm, hrest⟩ := h
    by_cases hk : k = c <;>
      simp [Children.set, hk, Children.wfChildren, hn, hm, hrest, ih hrest]

theorem Children.wfChildren_remove {V : Type u} {cs : Children V} {c : Nat}
    (h : cs.wfChildren = true) : (cs.remove c).wfChildren = true := by
  induction cs using Children.inductionOn with
  | base => simp [Children.remove, Children.wfChildren]
  | step k m rest ih =>
    simp only [Children.wfChildren, Bool.and_eq_true] at h
    obtain ⟨hm, hrest⟩ := h
    by_cases hk : k = c <;>
      simp [Children.remove, hk, Children.wfChildren, hm, hrest, ih hrest]

/-! ### Byte lengths and char indexing -/

theorem one_le_charWidth (c : Nat) : 1 ≤ charWidth c := by
  unfold charWidth
  split
  · omega
  · split
    · omega
    · split <;> omega

theorem length_le_byteLen (k : List Nat) : k.length ≤ byteLen k := by
  induction k with
  | nil => simp [byteLen]
  | cons c rest ih =>
    have := one_le_charWidth c
    simp only [byteLen, List.map_cons, List.sum_cons, List.length_cons]
    simp only [byteLen] at ih
    omega

theorem drop_of_get? {k : List Nat} {i c : Nat} (h : k.get? i = some c) :
    k.drop i = c :: k.drop (i + 1) := by
  induction k generalizing i with
  | nil => simp at h
  | cons a rest ih =>
    cases i with
    | zero => simp_all
    | succ j =>
      simp only [List.get?] at h
      simpa [List.drop] using ih h

/-! ### Walking and lookup -/

theorem TrieNode.nodupKeys_eq {V : Type u} (t : TrieNode V) :
    t.nodupKeys = t.children.nodupKeysC := by
  cases t; rfl

theorem TrieNode.wfNode_eq {V : Type u} (t : TrieNode V) :
    t.wfNode = ((t.value.isSome || !t.children.isEmpty) && t.children.wfChildren) := by
  cases t; rfl

theorem TrieNode.get_append {V : Type u} (t : TrieNode V) (p s : List Nat) :
    t.get (p ++ s) = (t.walk p).bind (fun nd => nd.get s) := by
  induction p generalizing t with
  | nil => simp [TrieNode.walk]
  | cons c rest ih =>
    simp only [List.cons_append, TrieNode.get, TrieNode.walk]
    cases hf : t.children.find c with
    | none => rfl
    | some child => exact ih child

theorem TrieNode.walk_nodupKeys {V : Type u} {t nd : TrieNode V} {p : List Nat}
    (hnd : t.nodupKeys = true) (hw : t.walk p = some nd) :
    nd.nodupKeys = true := by
  induction p generalizing t with
  | nil =>
    simp only [TrieNode.walk, Option.some.injEq] at hw
    exact hw ▸ hnd
  | cons c rest ih =>
    simp only [TrieNode.walk] at hw
    cases hf : t.children.find c with
    | none => simp [hf] at hw
    | some child =>
      rw [hf] at hw
      rw [TrieNode.nodupKeys_eq] at hnd
      exact ih (Children.find_nodupKeys hnd hf) hw

/-- C5 — **Round-trip and overwrite**: for every trie state `t`, every key `k`
(the empty key included) and every value `v`, `insert(k, v)` followed by
`get(k)` returns `v`; consequently inserting the same key twice leaves only the
latest value retrievable. -/
theorem insert_get_roundtrip {V : Type u} :
    (∀ (t : TrieNode V) (k : List Nat) (v : V), (t.insert k v).get k = some v) ∧
    (∀ (t : TrieNode V) (k : List Nat) (v₁ v₂ : V),
      ((t.insert k v₁).insert k v₂).get k = some v₂) := by
  have main : ∀ (k : List Nat) (t : TrieNode V) (v : V),
      (t.insert k v).get k = some v := by
    intro k
    induction k with
    | nil =>
      intro t v
      cases t
      simp [TrieNode.insert, TrieNode.get, TrieNode.value]
    | cons c rest ih =>
      intro t v
      cases t with
      | mk val cs =>
        simp only [TrieNode.insert, TrieNode.get, TrieNode.children,
          Children.find_set_self]
        exact ih _ v
  exact ⟨fun t k v => main k t v, fun t k v₁ v₂ => main k _ v₂⟩

theorem TrieNode.prefixSearch_append {V : Type u} {t : TrieNode V} {q s : List Nat}
    (h : t.prefixSearch (q ++ s) = true) : t.prefixSearch q = true := by
  induction q generalizing t with
  | nil => rfl
  | cons c rest ih =>
    simp only [List.cons_append, TrieNode.prefixSearch] at h ⊢
    cases hf : t.children.find c with
    | none => rw [hf] at h; exact h
    | some child => rw [hf] at h; exact ih h

/-- C9 — **Prefix monotonicity**: whenever `prefix_search(p)` is true,
`prefix_search(q)` is true for every prefix `q` of `p`, and the empty prefix
always answers true. -/
theorem prefixSearch_monotone {V : Type u} :
    (∀ (t : TrieNode V) (p q : List Nat), t.prefixSearch p = true → q <+: p →
      t.prefixSearch q = true) ∧
    (∀ t : TrieNode V, t.prefixSearch [] = true) := by
  constructor
  · intro t p q hp hq
    obtain ⟨s, rfl⟩ := hq
    exact TrieNode.prefixSearch_append hp
  · intro t
    rfl

/-- Witness for `prefixSearch_monotone` at a concrete trie, prefix and sub-prefix. -/
theorem prefixSearch_monotone_witness :
    (TrieNode.new.insert ([97, 98, 99] : List Nat) (5 : Nat)).prefixSearch [97] = true :=
  prefixSearch_monotone.1 _ [97, 98] [97] (by decide) ⟨[98], rfl⟩

/-! ### The autocomplete cap -/

mutual
theorem TrieNode.collectWords_length_le {V : Type u} (node : TrieNode V) (pre : List Nat)
    (results : List (List Nat)) (maxResults : Nat) (h : results.length ≤ maxResults) :
    (node.collectWords pre results maxResults).length ≤ maxResults := by
  cases node with
  | mk val cs =>
    rw [TrieNode.collectWords]
    by_cases hc : maxResults ≤ results.length
    · simpa [hc] using h
    · simp only [if_neg hc]
      apply Children.collectChildren_length_le
      by_cases hv : val.isSome <;> simp [hv] <;> omega

theorem Children.collectChildren_length_le {V : Type u} (cs : Children V) (pre : List Nat)
    (results : List (List Nat)) (maxResults : Nat) (h : results.length ≤ maxResults) :
    (Children.collectChildren cs pre results maxResults).length ≤ maxResults := by
  cases cs with
  | nil => simpa [Children.collectChildren] using h
  | cons c child rest =>
    rw [Children.collectChildren]
    by_cases hc : maxResults ≤ results.length
    · simpa [hc] using h
    · simp only [if_neg hc]
      exact Children.collectChildren_length_le rest pre _ maxResults
        (TrieNode.collectWords_length_le child (pre ++ [c]) results maxResults h)
end

/-! ### Autocomplete completeness below the cap -/

mutual
theorem TrieNode.allWords_length {V : Type u} (node : TrieNode V) (pre : List Nat) :
    (node.allWords pre).length = node.countValues := by
  cases node with
  | mk val cs =>
    simp only [TrieNode.allWords, TrieNode.countValues, List.length_append]
    by_cases hv : val.isSome <;>
      simp [hv, Children.allWordsC_length cs pre]

theorem Children.allWordsC_length {V : Type u} (cs : Children V) (pre : List Nat) :
    (cs.allWordsC pre).length = cs.countValuesC := by
  cases cs with
  | nil => rfl
  | cons c n rest =>
    simp only [Children.allWordsC, Children.countValuesC, List.length_append,
      TrieNode.allWords_length n (pre ++ [c]), Children.allWordsC_length rest pre]
end

mutual
theorem TrieNode.collectWords_no_truncation {V : Type u} (node : TrieNode V)
    (pre : List Nat) (results : List (List Nat)) (maxResults : Nat)
    (h : results.length + node.countValues ≤ maxResults) :
    node.collectWords pre results maxResults = results ++ node.allWords pre := by
  cases node with
  | mk val cs =>
    rw [TrieNode.collectWords]
    by_cases hc : maxResults ≤ results.length
    · have hcnt : TrieNode.countValues (.mk val cs) = 0 := by omega
      have hlen : (TrieNode.allWords (.mk val cs) pre).length = 0 := by
        rw [TrieNode.allWords_length]; exact hcnt
      simp [hc, List.length_eq_zero.mp hlen]
    · simp only [if_neg hc]
      simp only [TrieNode.countValues] at h
      by_cases hv : val.isSome
      · rw [if_pos hv]
        rw [Children.collectChildren_no_truncation cs pre (results ++ [pre]) maxResults
          (by simp only [List.length_append, List.length_singleton]
              simp only [if_pos hv] at h
              omega)]
        simp [TrieNode.allWords, hv]
      · rw [if_neg hv]
        rw [Children.collectChildren_no_truncation cs pre results maxResults
          (by simp only [if_neg hv] at h; omega)]
        simp [TrieNode.allWords, hv]

theorem Children.collectChildren_no_truncation {V : Type u} (cs : Children V)
    (pre : List Nat) (results : List (List Nat)) (maxResults : Nat)
    (h : results.length + cs.countValuesC ≤ maxResults) :
    Children.collectChildren cs pre results maxResults = results ++ cs.allWordsC pre := by
  cases cs with
  | nil => simp [Children.collectChildren, Children.allWordsC]
  | cons c child rest =>
    rw [Children.collectChildren]
    simp only [Children.countValuesC] at h
    by_cases hc : maxResults ≤ results.length
    · have hlen : (Children.allWordsC (.cons c child rest) pre).length = 0 := by
        rw [Children.allWordsC_length]
        simp only [Children.countValuesC]
        omega
      simp [hc, List.length_eq_zero.mp hlen]
    · simp only [if_neg hc]
      rw [TrieNode.collectWords_no_truncation child (pre ++ [c]) results maxResults
        (by omega)]
      rw [Children.collectChildren_no_truncation rest pre
        (results ++ child.allWords (pre ++ [c])) maxResults
        (by simp only [List.length_append, TrieNode.allWords_length]; omega)]
      simp [Children.allWordsC, List.append_assoc]
end

theorem Children.mem_allWordsC_of_find {V : Type u} {cs : Children V} {c : Nat}
    {child : TrieNode V} (hf : cs.find c = some child) {x : List Nat} {pre : List Nat}
    (hx : x ∈ child.allWords (pre ++ [c])) : x ∈ cs.allWordsC pre := by
  induction cs using Children.inductionOn with
  | base => simp [Children.find] at hf
  | step k n rest ih =>
    by_cases hk : k = c
    · subst hk
      simp only [Children.find, if_true, eq_self_iff_true, Option.some.injEq] at hf
      rw [Children.allWordsC]
      exact List.mem_append_left _ (hf ▸ hx)
    · simp only [Children.find, if_neg hk] at hf
      rw [Children.allWordsC]
      exact List.mem_append_right _ (ih hf)

theorem TrieNode.mem_allWords_of_get {V : Type u} {node : TrieNode V} {s : List Nat}
    {v : V} (h : node.get s = some v) (pre : List Nat) :
    pre ++ s ∈ node.allWords pre := by
  induction s generalizing node pre with
  | nil =>
    cases node with
    | mk val cs =>
      simp only [TrieNode.get, TrieNode.value] at h
      simp [TrieNode.allWords, h]
  | cons c rest ih =>
    cases node with
    | mk val cs =>
      simp only [TrieNode.get, TrieNode.children] at h
      cases hf : cs.find c with
      | none => rw [hf] at h; cases h
      | some child =>
        rw [hf] at h
        have hmem : (pre ++ [c]) ++ rest ∈ child.allWords (pre ++ [c]) :=
          ih h (pre ++ [c])
        have : pre ++ c :: rest ∈ cs.allWordsC pre :=
          Children.mem_allWordsC_of_find hf (by simpa [List.append_assoc] using hmem)
        rw [TrieNode.allWords]
        exact List.mem_append_right _ this

/-- C6 — **Autocomplete completeness below the cap**: when the number `m` of
keys of the trie having prefix `p` (valued nodes of the `p`-subtree) satisfies
`m ≤ n`, `auto_complete(p, n)` returns every such key. -/
theorem autoComplete_complete_below_cap {V : Type u} (t : TrieNode V) (p : List Nat)
    (n : Nat) (hm : t.countCompletions p ≤ n) (k : List Nat) (v : V)
    (hk : t.get k = some v) (hp : p <+: k) : k ∈ t.autoComplete p n := by
  obtain ⟨s, rfl⟩ := hp
  rw [TrieNode.get_append] at hk
  cases hw : t.walk p with
  | none => rw [hw] at hk; cases hk
  | some nd =>
    rw [hw] at hk
    simp only [Option.some_bind] at hk
    have hcnt : nd.countValues ≤ n := by
      simp only [TrieNode.countCompletions, hw] at hm; exact hm
    simp only [TrieNode.autoComplete, hw]
    rw [TrieNode.collectWords_no_truncation nd p [] n (by simpa using hcnt)]
    simpa using TrieNode.mem_allWords_of_get hk p

/-- Witness for `autoComplete_complete_below_cap`: with keys `"a"` and `"ab"`
and three or fewer completions of `"a"`, the key `"ab"` is returned. -/
theorem autoComplete_complete_below_cap_witness :
    [97, 98] ∈ ((TrieNode.new.insert [97] (1 : Nat)).insert [97, 98] 2).autoComplete [97] 3 :=
  autoComplete_complete_below_cap _ [97] 3 (by decide) [97, 98] 2 (by decide)
    ⟨[98], rfl⟩

/-! ### Adapter outcome reporting -/

/-- C10 — **Lock failure is a distinct outcome**: each adapter NIF answers the
`error` atom exactly when the lock is poisoned; `get` answers `not_found` only
under an acquired lock, and `prefix_search` / `auto_complete` pair their
payloads with an atom so a poisoned lock is never a bare `false` / `[]`. -/
theorem nif_lock_failure_distinct {V : Type u} :
    (Atom.error ≠ Atom.notFound ∧ Atom.error ≠ Atom.ok) ∧
    (∀ key : List Nat, nifGet (none : Option (TrieNode V)) key = (Atom.error, none)) ∧
    (∀ (lock : Option (TrieNode V)) (key : List Nat),
      (nifGet lock key).1 = Atom.error ↔ lock = none) ∧
    (∀ pre : List Nat,
      nifPrefixSearch (none : Option (TrieNode V)) pre = (Atom.error, false)) ∧
    (∀ (lock : Option (TrieNode V)) (pre : List Nat),
      (nifPrefixSearch lock pre).1 = Atom.error ↔ lock = none) ∧
    (∀ (pre : List Nat) (n : Nat),
      nifAutoComplete (none : Option (TrieNode V)) pre n = (Atom.error, [])) ∧
    (∀ (lock : Option (TrieNode V)) (pre : List Nat) (n : Nat),
      (nifAutoComplete lock pre n).1 = Atom.error ↔ lock = none) := by
  refine ⟨⟨by decide, by decide⟩, fun _ => rfl, ?_, fun _ => rfl, ?_, fun _ _ => rfl, ?_⟩
  · intro lock key
    cases lock with
    | none => simp [nifGet]
    | some t => cases hg : t.get key <;> simp [nifGet, hg]
  · intro lock pre
    cases lock with
    | none => simp [nifPrefixSearch]
    | some t => simp [nifPrefixSearch]
  · intro lock pre n
    cases lock with
    | none => simp [nifAutoComplete]
    | some t => simp [nifAutoComplete]

/-- Witness for `nif_lock_failure_distinct`: a poisoned lock makes `get`
answer the `error` atom. -/
theorem nif_lock_failure_distinct_witness :
    (nifGet (none : Option (TrieNode Nat)) [97]).1 = Atom.error :=
  (nif_lock_failure_distinct.2.2.1 none [97]).mpr rfl

/-! ### The delete byte-length/char-index mismatch -/

/-- C1 — the claim fails on the code: for the previously inserted one-char
multi-byte key `"é"` (codepoint 233, UTF-8 byte length 2), `delete` does not
complete: `delete_recursive` compares its index against `key.len()` (bytes)
but fetches `key.chars().nth(index)`, so at index 1 the `.unwrap()` panics. -/
theorem delete_multibyte_key_panics :
    (TrieNode.new.insert [233] (7 : Nat)).get [233] = some 7 ∧
    (TrieNode.new.insert [233] (7 : Nat)).delete [233] = none := by
  refine ⟨by decide, ?_⟩
  simp [TrieNode.delete, TrieNode.deleteRecursive, TrieNode.insert, Children.set,
    Children.find, byteLen, charWidth, TrieNode.new, TrieNode.value, TrieNode.children,
    Children.isEmpty, Children.remove]

/-- C2 counterexample: for the previously inserted multi-byte key `"α"`
(codepoint 945), `delete` panics, so no post-delete state in which `get`
reports not-found exists. -/
theorem delete_removes_counterexample :
    (TrieNode.new.insert [945] (7 : Nat)).get [945] = some 7 ∧
    ¬ ∃ t', (TrieNode.new.insert [945] (7 : Nat)).delete [945] = some t' ∧
        t'.get [945] = none := by
  have hdel : (TrieNode.new.insert [945] (7 : Nat)).delete [945] = none := by
    simp [TrieNode.delete, TrieNode.deleteRecursive, TrieNode.insert, Children.set,
      Children.find, byteLen, charWidth, TrieNode.new, TrieNode.value, TrieNode.children,
      Children.isEmpty, Children.remove]
  refine ⟨by decide, ?_⟩
  rintro ⟨t', ht, -⟩
  rw [hdel] at ht
  cases ht

theorem TrieNode.deleteRecursive_get_none {V : Type u} (key : List Nat) (index : Nat)
    (node : TrieNode V) (hnd : node.nodupKeys = true) {v : V}
    (hget : node.get (key.drop index) = some v) {node' : TrieNode V} {flag : Bool}
    (hdel : node.deleteRecursive key index = some (node', flag)) :
    node'.get (key.drop index) = none := by
  rw [TrieNode.deleteRecursive] at hdel
  split at hdel
  case isTrue hidx =>
    have hdrop : key.drop index = [] := by
      have := length_le_byteLen key
      exact List.drop_eq_nil_of_le (by omega)
    rw [hdrop] at hget ⊢
    cases node with
    | mk val cs =>
      simp only [TrieNode.get, TrieNode.value] at hget
      rw [TrieNode.value] at hdel
      rw [hget] at hdel
      simp only [Option.isSome_some, if_true, TrieNode.children, Option.some.injEq,
        Prod.mk.injEq] at hdel
      obtain ⟨h1, -⟩ := hdel
      rw [← h1]
      simp [TrieNode.get, TrieNode.value]
  case isFalse hidx =>
    split at hdel
    case h_1 heq => cases hdel
    case h_2 ch heq =>
      have hdrop := drop_of_get? heq
      rw [hdrop] at hget ⊢
      cases node with
      | mk val cs =>
        simp only [TrieNode.get, TrieNode.children] at hget ⊢
        simp only [TrieNode.children, TrieNode.value] at hdel
        cases hf : cs.find ch with
        | none => rw [hf] at hget; cases hget
        | some child =>
          simp only [hf] at hget hdel
          cases hrec : TrieNode.deleteRecursive child key (index + 1) with
          | none => simp only [hrec] at hdel; cases hdel
          | some pr =>
            obtain ⟨child', flag'⟩ := pr
            simp only [hrec] at hdel
            simp only [Option.some.injEq, Prod.mk.injEq] at hdel
            obtain ⟨h1, -⟩ := hdel
            rw [TrieNode.nodupKeys_eq, TrieNode.children] at hnd
            by_cases hflag : flag' = true
            · rw [if_pos hflag] at h1
              rw [← h1]
              simp [TrieNode.get, TrieNode.children, Children.find_remove_self hnd ch]
            · rw [if_neg hflag] at h1
              rw [← h1]
              have hchild_nd : child.nodupKeys = true := Children.find_nodupKeys hnd hf
              have ih := TrieNode.deleteRecursive_get_none key (index + 1) child
                hchild_nd hget hrec
              simp [TrieNode.get, TrieNode.children, Children.find_set_self, ih]
termination_by key.length - index
decreasing_by
  have hlt : index < key.length := by
    by_contra hge
    push_neg at hge
    rw [List.drop_eq_nil_of_le hge] at hdrop
    cases hdrop
  omega

/-- C2 (amended) — **Delete removes, when it completes**: for every trie state
with `HashMap`-unique sibling keys and every previously inserted key `k`, if
`delete(k)` completes without panicking then `get(k)` reports not-found
afterwards.  (For multi-byte `k` the call panics instead — see
`delete_removes_counterexample`; ASCII keys always complete.) -/
theorem delete_removes_completed {V : Type u} (t : TrieNode V) (k : List Nat) (v : V)
    (hnd : t.nodupKeys = true) (hget : t.get k = some v) {t' : TrieNode V}
    (hdel : t.delete k = some t') : t'.get k = none := by
  unfold TrieNode.delete at hdel
  cases hrec : t.deleteRecursive k 0 with
  | none => rw [hrec] at hdel; cases hdel
  | some pr =>
    obtain ⟨node', flag⟩ := pr
    rw [hrec] at hdel
    simp only [Option.map_some', Option.some.injEq] at hdel
    subst hdel
    have := TrieNode.deleteRecursive_get_none k 0 t hnd (by simpa using hget) hrec
    simpa using this

/-- Witness for `delete_removes_completed`: deleting the ASCII key `"a"` from
the trie holding it completes and leaves `get "a"` not-found. -/
theorem delete_removes_completed_witness :
    (TrieNode.new : TrieNode Nat).get [97] = none :=
  delete_removes_completed (TrieNode.new.insert [97] 5) [97] 5 (by decide) (by decide)
    (by simp [TrieNode.delete, TrieNode.deleteRecursive, TrieNode.insert, Children.set,
      Children.find, byteLen, charWidth, TrieNode.new, TrieNode.value, TrieNode.children,
      Children.isEmpty, Children.remove])

/-! ### Delete as a no-op on missing keys -/

/-- C3 counterexample: the claim fails as stated, in two ways.  (1) With only
`"éx"` inserted, `"é"` (codepoint 233) is not a key, yet `delete("é")` panics
rather than completing as a no-op.  (2) On a tree violating the structural
invariant (a value-less, childless non-root node), deleting the absent key
`"ab"` unlinks that node, mutating the tree. -/
theorem delete_noop_counterexample :
    ((TrieNode.new.insert [233, 120] (5 : Nat)).get [233] = none ∧
      (TrieNode.new.insert [233, 120] (5 : Nat)).delete [233] = none) ∧
    ((TrieNode.mk (none : Option Nat)
        (Children.cons 97 (TrieNode.mk none Children.nil) Children.nil)).get [97, 98]
          = none ∧
      (TrieNode.mk (none : Option Nat)
        (Children.cons 97 (TrieNode.mk none Children.nil) Children.nil)).delete [97, 98]
          = some (TrieNode.mk none Children.nil) ∧
      TrieNode.mk (none : Option Nat) Children.nil ≠
        TrieNode.mk none (Children.cons 97 (TrieNode.mk none Children.nil) Children.nil)) := by
  refine ⟨⟨by decide, ?_⟩, by decide, ?_, by decide⟩
  · simp [TrieNode.delete, TrieNode.deleteRecursive, TrieNode.insert, Children.set,
      Children.find, byteLen, charWidth, TrieNode.new, TrieNode.value, TrieNode.children,
      Children.isEmpty, Children.remove]
  · simp [TrieNode.delete, TrieNode.deleteRecursive, Children.set, Children.find,
      byteLen, charWidth, TrieNode.value, TrieNode.children, Children.isEmpty,
      Children.remove]

theorem TrieNode.deleteRecursive_noop {V : Type u} (key : List Nat) (index : Nat)
    (node : TrieNode V) (hwf : node.children.wfChildren = true)
    (hget : node.get (key.drop index) = none) {node' : TrieNode V} {flag : Bool}
    (hdel : node.deleteRecursive key index = some (node', flag)) :
    node' = node ∧
      (flag = true → node.value.isNone = true ∧ node.children.isEmpty = true) := by
  rw [TrieNode.deleteRecursive] at hdel
  split at hdel
  case isTrue hidx =>
    have hdrop : key.drop index = [] := by
      have := length_le_byteLen key
      exact List.drop_eq_nil_of_le (by omega)
    rw [hdrop] at hget
    cases node with
    | mk val cs =>
      simp only [TrieNode.get, TrieNode.value] at hget
      subst hget
      simp only [TrieNode.value, TrieNode.children, Option.isSome_none,
        Bool.false_eq_true, if_false, Option.some.injEq, Prod.mk.injEq] at hdel
      obtain ⟨h1, h2⟩ := hdel
      refine ⟨h1.symm, fun hft => ?_⟩
      rw [← h2] at hft
      cases hft
  case isFalse hidx =>
    split at hdel
    case h_1 heq => cases hdel
    case h_2 ch heq =>
      have hdrop := drop_of_get? heq
      rw [hdrop] at hget
      cases node with
      | mk val cs =>
        simp only [TrieNode.get, TrieNode.children] at hget
        simp only [TrieNode.children, TrieNode.value] at hdel
        cases hf : cs.find ch with
        | none =>
          simp only [hf, Option.some.injEq, Prod.mk.injEq] at hdel
          obtain ⟨h1, h2⟩ := hdel
          refine ⟨h1.symm, fun hft => ?_⟩
          rw [← h2] at hft
          simp only [Bool.and_eq_true] at hft
          exact hft
        | some child =>
          simp only [hf] at hdel hget
          cases hrec : child.deleteRecursive key (index + 1) with
          | none => simp only [hrec] at hdel; cases hdel
          | some pr =>
            obtain ⟨child', flag'⟩ := pr
            simp only [hrec] at hdel
            have hchildwf : child.wfNode = true := Children.find_wfNode hwf hf
            have hchild_cswf : child.children.wfChildren = true := by
              rw [TrieNode.wfNode_eq, Bool.and_eq_true] at hchildwf
              exact hchildwf.2
            obtain ⟨hch_eq, hch_flag⟩ :=
              TrieNode.deleteRecursive_noop key (index + 1) child hchild_cswf hget hrec
            have hflag' : flag' = false := by
              cases hfl : flag' with
              | false => rfl
              | true =>
                obtain ⟨hv, he⟩ := hch_flag hfl
                rw [TrieNode.wfNode_eq] at hchildwf
                rw [Option.isNone_iff_eq_none] at hv
                simp [hv, he] at hchildwf
            rw [hflag'] at hdel
            rw [hch_eq] at hdel
            simp only [Bool.false_eq_true, if_false, Children.set_find_eq hf,
              Option.some.injEq, Prod.mk.injEq] at hdel
            obtain ⟨h1, h2⟩ := hdel
            refine ⟨h1.symm, fun hft => ?_⟩
            rw [← h2] at hft
            simp only [Bool.and_eq_true] at hft
            exact hft
termination_by key.length - index
decreasing_by
  have hlt : index < key.length := by
    by_contra hge
    push_neg at hge
    rw [List.drop_eq_nil_of_le hge] at hdrop
    cases hdrop
  omega

/-- C3 (amended) — **Idempotent delete, when it completes**: on a trie
satisfying the structural invariant (every non-root node has a value or a
child, as all reachable states do), deleting a key that `get` reports
not-found leaves the tree exactly unchanged whenever the call completes
without panicking; all subsequent `get`/`prefix_search` results are therefore
identical.  (Without the invariant, or when the byte/char mismatch panics,
the claim fails — see `delete_noop_counterexample`.) -/
theorem delete_missing_key_noop {V : Type u} (t : TrieNode V) (k : List Nat)
    (hwf : t.wfRoot = true) (hget : t.get k = none) {t' : TrieNode V}
    (hdel : t.delete k = some t') : t' = t := by
  unfold TrieNode.delete at hdel
  cases hrec : t.deleteRecursive k 0 with
  | none => rw [hrec] at hdel; cases hdel
  | some pr =>
    obtain ⟨node', flag⟩ := pr
    rw [hrec] at hdel
    simp only [Option.map_some', Option.some.injEq] at hdel
    subst hdel
    exact (TrieNode.deleteRecursive_noop k 0 t hwf (by simpa using hget) hrec).1

/-- Witness for `delete_missing_key_noop`: deleting the absent ASCII key `"b"`
from the trie holding only `"a"` completes and returns the tree unchanged. -/
theorem delete_missing_key_noop_witness :
    TrieNode.mk (none : Option Nat)
        (Children.cons 97 (TrieNode.mk (some 5) Children.nil) Children.nil) =
      TrieNode.new.insert [97] (5 : Nat) :=
  delete_missing_key_noop (TrieNode.new.insert [97] (5 : Nat)) [98] (by decide)
    (by decide)
    (by simp [TrieNode.delete, TrieNode.deleteRecursive, TrieNode.insert, Children.set,
      Children.find, byteLen, charWidth, TrieNode.new, TrieNode.value, TrieNode.children,
      Children.isEmpty, Children.remove])

/-! ### Structural invariant preservation and full pruning -/

theorem byteLen_ascii {k : List Nat} (h : allAscii k = true) : byteLen k = k.length := by
  induction k with
  | nil => rfl
  | cons c rest ih =>
    simp only [allAscii, List.all_cons, Bool.and_eq_true] at h
    obtain ⟨hc, hrest⟩ := h
    have hw : charWidth c = 1 := by
      simp [charWidth, of_decide_eq_true hc]
    simp only [byteLen, List.map_cons, List.sum_cons, List.length_cons, hw]
    have := ih hrest
    simp only [byteLen] at this
    omega

theorem Children.set_isEmpty {V : Type u} (cs : Children V) (c : Nat) (n : TrieNode V) :
    (cs.set c n).isEmpty = false := by
  cases cs with
  | nil => rfl
  | cons k m rest =>
    simp only [Children.set]
    split <;> rfl

theorem TrieNode.insert_wfNode {V : Type u} (k : List Nat) (v : V) (node : TrieNode V)
    (h : node.children.wfChildren = true) : (node.insert k v).wfNode = true := by
  induction k generalizing node with
  | nil =>
    cases node with
    | mk val cs =>
      simp only [TrieNode.children] at h
      simp [TrieNode.insert, TrieNode.wfNode, h]
  | cons c rest ih =>
    cases node with
    | mk val cs =>
      simp only [TrieNode.children] at h
      have hchild : ((cs.find c).getD TrieNode.new).children.wfChildren = true := by
        cases hf : cs.find c with
        | none => rfl
        | some child =>
          have hwf := Children.find_wfNode h hf
          rw [TrieNode.wfNode_eq, Bool.and_eq_true] at hwf
          simpa using hwf.2
      have hX := ih _ hchild
      simp only [TrieNode.insert, TrieNode.wfNode]
      rw [Children.set_isEmpty, Children.wfChildren_set h hX]
      simp

theorem TrieNode.insert_wfRoot {V : Type u} (t : TrieNode V) (k : List Nat) (v : V)
    (h : t.wfRoot = true) : (t.insert k v).wfRoot = true := by
  have hn := TrieNode.insert_wfNode k v t h
  rw [TrieNode.wfNode_eq, Bool.and_eq_true] at hn
  exact hn.2

theorem TrieNode.addWordList_wfRoot {V : Type u} (ws : List (List Nat))
    (f : List Nat → V) (t : TrieNode V) (h : t.wfRoot = true) :
    (t.addWordList ws f).wfRoot = true := by
  induction ws generalizing t with
  | nil => exact h
  | cons w rest ih =>
    exact ih _ (TrieNode.insert_wfRoot t w (f w) h)

theorem TrieNode.deleteRecursive_wf {V : Type u} (key : List Nat) (index : Nat)
    (node : TrieNode V) (h : node.children.wfChildren = true) {node' : TrieNode V}
    {flag : Bool} (hdel : node.deleteRecursive key index = some (node', flag)) :
    node'.children.wfChildren = true ∧
      (flag = false → node.wfNode = true → node'.wfNode = true) := by
  rw [TrieNode.deleteRecursive] at hdel
  split at hdel
  case isTrue hidx =>
    split at hdel
    case isTrue hv =>
      simp only [Option.some.injEq, Prod.mk.injEq] at hdel
      obtain ⟨h1, h2⟩ := hdel
      rw [← h1]
      refine ⟨h, fun hfl _ => ?_⟩
      rw [← h2] at hfl
      rw [TrieNode.wfNode_eq]
      simp only [TrieNode.children, TrieNode.value, Option.isSome_none, Bool.false_or]
      exact (by simpa using And.intro hfl h)
    case isFalse hv =>
      simp only [Option.some.injEq, Prod.mk.injEq] at hdel
      obtain ⟨h1, h2⟩ := hdel
      rw [← h1]
      exact ⟨h, fun _ hwf => hwf⟩
  case isFalse hidx =>
    split at hdel
    case h_1 heq => cases hdel
    case h_2 ch heq =>
      have hdrop := drop_of_get? heq
      cases node with
      | mk val cs =>
        simp only [TrieNode.children] at h
        simp only [TrieNode.children, TrieNode.value] at hdel
        cases hf : cs.find ch with
        | none =>
          simp only [hf, Option.some.injEq, Prod.mk.injEq] at hdel
          obtain ⟨h1, h2⟩ := hdel
          rw [← h1]
          exact ⟨h, fun _ hwf => hwf⟩
        | some child =>
          simp only [hf] at hdel
          cases hrec : child.deleteRecursive key (index + 1) with
          | none => simp only [hrec] at hdel; cases hdel
          | some pr =>
            obtain ⟨child', flag'⟩ := pr
            simp only [hrec] at hdel
            have hchildwf : child.wfNode = true := Children.find_wfNode h hf
            have hchild_cs : child.children.wfChildren = true := by
              rw [TrieNode.wfNode_eq, Bool.and_eq_true] at hchildwf
              exact hchildwf.2
            obtain ⟨ihwf, ihnode⟩ :=
              TrieNode.deleteRecursive_wf key (index + 1) child hchild_cs hrec
            by_cases hfl' : flag' = true
            · rw [hfl'] at hdel
              simp only [eq_self_iff_true, if_true, Option.some.injEq,
                Prod.mk.injEq] at hdel
              obtain ⟨h1, h2⟩ := hdel
              rw [← h1]
              have hwf' : (cs.remove ch).wfChildren = true := Children.wfChildren_remove h
              refine ⟨hwf', fun hfl _ => ?_⟩
              rw [← h2] at hfl
              rw [TrieNode.wfNode_eq]
              simp only [TrieNode.children, TrieNode.value, hwf', Bool.and_true]
              cases hval : val with
              | none => simp only [hval, Option.isNone_none, Bool.true_and] at hfl
                        simp [hfl]
              | some v0 => simp
            · have hfl'' : flag' = false := by
                cases flag' with
                | false => rfl
                | true => exact absurd rfl hfl'
              rw [hfl''] at hdel
              simp only [Bool.false_eq_true, if_false, Option.some.injEq,
                Prod.mk.injEq] at hdel
              obtain ⟨h1, h2⟩ := hdel
              rw [← h1]
              have hcwf' : child'.wfNode = true := ihnode hfl'' hchildwf
              have hwfs : (cs.set ch child').wfChildren = true :=
                Children.wfChildren_set h hcwf'
              refine ⟨hwfs, fun hfl _ => ?_⟩
              rw [← h2] at hfl
              rw [TrieNode.wfNode_eq]
              simp only [TrieNode.children, TrieNode.value, hwfs, Bool.and_true]
              cases hval : val with
              | none => simp only [hval, Option.isNone_none, Bool.true_and] at hfl
                        simp [hfl]
              | some v0 => simp
termination_by key.length - index
decreasing_by
  have hlt : index < key.length := by
    by_contra hge
    push_neg at hge
    rw [List.drop_eq_nil_of_le hge] at hdrop
    cases hdrop
  omega

/-- C4 counterexample: deleting the only key `"λ"` (codepoint 955, two UTF-8
bytes) of a singleton trie panics; no resulting tree exists at all, in
particular not the fresh empty trie the claim promises. -/
theorem delete_only_key_counterexample :
    (TrieNode.new.insert [955] (0 : Nat)).get [955] = some 0 ∧
    (TrieNode.new.insert [955] (0 : Nat)).delete [955] = none := by
  refine ⟨by decide, ?_⟩
  simp [TrieNode.delete, TrieNode.deleteRecursive, TrieNode.insert, Children.set,
    Children.find, byteLen, charWidth, TrieNode.new, TrieNode.value, TrieNode.children,
    Children.isEmpty, Children.remove]

theorem TrieNode.insert_new_cons {V : Type u} (c : Nat) (rest : List Nat) (v : V) :
    TrieNode.new.insert (c :: rest) v
      = TrieNode.mk none (Children.cons c (TrieNode.new.insert rest v) Children.nil) :=
  rfl

theorem TrieNode.deleteRecursive_insert_new {V : Type u} (key : List Nat) (v : V)
    (hascii : allAscii key = true) (index : Nat) (hidx : index ≤ key.length) :
    (TrieNode.new.insert (key.drop index) v).deleteRecursive key index
      = some (TrieNode.new, true) := by
  have hbyte := byteLen_ascii hascii
  by_cases he : index = key.length
  · have hdrop : key.drop index = [] := List.drop_eq_nil_of_le (le_of_eq he.symm)
    rw [hdrop, TrieNode.deleteRecursive, if_pos (by omega)]
    simp [TrieNode.insert, TrieNode.new, TrieNode.value, TrieNode.children,
      Children.isEmpty]
  · have hlt : index < key.length := lt_of_le_of_ne hidx he
    have hc : key.get? index = some (key.get ⟨index, hlt⟩) := List.get?_eq_get hlt
    have hdrop := drop_of_get? hc
    have ih := TrieNode.deleteRecursive_insert_new key v hascii (index + 1) hlt
    rw [hdrop, TrieNode.insert_new_cons, TrieNode.deleteRecursive, if_neg (by omega)]
    split
    next heq2 => rw [hc] at heq2; cases heq2
    next ch heq2 =>
      rw [hc] at heq2
      injection heq2 with hch
      subst hch
      simp only [TrieNode.children, TrieNode.value, Children.find, eq_self_iff_true,
        if_true]
      rw [ih]
      simp [Children.remove, Children.isEmpty, TrieNode.new]
termination_by key.length - index

/-- C4 (amended) — **Invariant preservation and full pruning, when delete
completes**: the structural invariant (every non-root node has a value or a
child) is preserved by `insert`, by every `delete` call that completes without
panicking, and by `add_word_list` (the read-only operations do not mutate the
tree); and deleting the only key of a singleton trie returns the tree to a
freshly constructed empty trie whenever the delete completes — in particular
for every ASCII key.  (For a multi-byte only key the delete panics instead —
see `delete_only_key_counterexample`.) -/
theorem invariant_preserved_and_prunes {V : Type u} :
    (∀ (t : TrieNode V) (k : List Nat) (v : V), t.wfRoot = true →
        (t.insert k v).wfRoot = true) ∧
    (∀ (t t' : TrieNode V) (k : List Nat), t.wfRoot = true →
        t.delete k = some t' → t'.wfRoot = true) ∧
    (∀ (t : TrieNode V) (ws : List (List Nat)) (f : List Nat → V), t.wfRoot = true →
        (t.addWordList ws f).wfRoot = true) ∧
    (∀ (k : List Nat) (v : V), allAscii k = true →
        (TrieNode.new.insert k v).delete k = some TrieNode.new) := by
  refine ⟨fun t k v h => TrieNode.insert_wfRoot t k v h, ?_,
    fun t ws f h => TrieNode.addWordList_wfRoot ws f t h, ?_⟩
  · intro t t' k h hdel
    unfold TrieNode.delete at hdel
    cases hrec : t.deleteRecursive k 0 with
    | none => rw [hrec] at hdel; cases hdel
    | some pr =>
      obtain ⟨node', flag⟩ := pr
      rw [hrec] at hdel
      simp only [Option.map_some', Option.some.injEq] at hdel
      subst hdel
      exact (TrieNode.deleteRecursive_wf k 0 t h hrec).1
  · intro k v hascii
    have hch := TrieNode.deleteRecursive_insert_new k v hascii 0 (Nat.zero_le _)
    rw [List.drop_zero] at hch
    unfold TrieNode.delete
    rw [hch]
    rfl

/-- Witness for `invariant_preserved_and_prunes`: inserting `"a"` into the
fresh trie keeps the invariant, and deleting it afterwards restores the fresh
empty trie. -/
theorem invariant_preserved_and_prunes_witness :
    ((TrieNode.new.insert [97] (3 : Nat)).wfRoot = true) ∧
    ((TrieNode.new.insert [97] (3 : Nat)).delete [97] = some TrieNode.new) :=
  ⟨invariant_preserved_and_prunes.1 TrieNode.new [97] (3 : Nat) (by decide),
   invariant_preserved_and_prunes.2.2.2 [97] (3 : Nat) (by decide)⟩

/-! ### Autocomplete soundness -/

mutual
theorem TrieNode.collectWords_sound {V : Type u} (node : TrieNode V) (pre : List Nat)
    (results : List (List Nat)) (maxResults : Nat) (hnd : node.nodupKeys = true)
    {x : List Nat} (hx : x ∈ node.collectWords pre results maxResults) :
    x ∈ results ∨ ∃ s, x = pre ++ s ∧ (node.get s).isSome = true := by
  cases node with
  | mk val cs =>
    rw [TrieNode.collectWords] at hx
    by_cases hc : maxResults ≤ results.length
    · rw [if_pos hc] at hx; exact .inl hx
    · rw [if_neg hc] at hx
      rw [TrieNode.nodupKeys_eq] at hnd
      rcases Children.collectChildren_sound cs pre _ maxResults hnd hx with
        hin | ⟨c, child, s, hf, rfl, hget⟩
      · by_cases hv : val.isSome
        · rw [if_pos hv] at hin
          rcases List.mem_append.mp hin with h1 | h2
          · exact .inl h1
          · refine .inr ⟨[], by simpa using h2, ?_⟩
            simp [TrieNode.get, TrieNode.value, hv]
        · rw [if_neg hv] at hin
          exact .inl hin
      · refine .inr ⟨[c] ++ s, by simp, ?_⟩
        simp only [TrieNode.get, TrieNode.children]
        rw [hf]
        simpa using hget

theorem Children.collectChildren_sound {V : Type u} (cs : Children V) (pre : List Nat)
    (results : List (List Nat)) (maxResults : Nat) (hnd : cs.nodupKeysC = true)
    {x : List Nat} (hx : x ∈ Children.collectChildren cs pre results maxResults) :
    x ∈ results ∨
      ∃ c child s, cs.find c = some child ∧ x = pre ++ [c] ++ s ∧
        (child.get s).isSome = true := by
  cases cs with
  | nil => exact .inl hx
  | cons c0 child0 rest =>
    rw [Children.collectChildren] at hx
    by_cases hc : maxResults ≤ results.length
    · rw [if_pos hc] at hx; exact .inl hx
    · rw [if_neg hc] at hx
      simp only [Children.nodupKeysC, Bool.and_eq_true, Option.isNone_iff_eq_none] at hnd
      obtain ⟨⟨hfind0, hnd0⟩, hndrest⟩ := hnd
      rcases Children.collectChildren_sound rest pre _ maxResults hndrest hx with
        hin | ⟨c, child, s, hf, hxe, hget⟩
      · rcases TrieNode.collectWords_sound child0 (pre ++ [c0]) results maxResults hnd0 hin with
          h1 | ⟨s, hxe, hget⟩
        · exact .inl h1
        · refine .inr ⟨c0, child0, s, ?_, ?_, hget⟩
          · simp [Children.find]
          · simpa [List.append_assoc] using hxe
      · have hne : c0 ≠ c := by
          intro he
          rw [← he, hfind0] at hf
          cases hf
        refine .inr ⟨c, child, s, ?_, hxe, hget⟩
        simpa [Children.find, hne] using hf
end

/-- C7 — **Autocomplete containment**: every key returned by
`auto_complete(p, n)` starts with `p` and is a key of the trie with a present
value.  The `nodupKeys` hypothesis carries the `HashMap` guarantee that sibling
keys are distinct. -/
theorem autoComplete_sound {V : Type u} (t : TrieNode V) (p : List Nat) (n : Nat)
    (hnd : t.nodupKeys = true) (k : List Nat) (hk : k ∈ t.autoComplete p n) :
    p <+: k ∧ (t.get k).isSome = true := by
  cases hw : t.walk p with
  | none => simp [TrieNode.autoComplete, hw] at hk
  | some nd =>
    simp only [TrieNode.autoComplete, hw] at hk
    rcases TrieNode.collectWords_sound nd p [] n (TrieNode.walk_nodupKeys hnd hw) hk with
      h | ⟨s, rfl, hget⟩
    · cases h
    · refine ⟨⟨s, rfl⟩, ?_⟩
      rw [TrieNode.get_append, hw, Option.some_bind]
      exact hget

/-- Witness for `autoComplete_sound`: the returned key `"ab"` starts with `"a"`
and is present in the trie. -/
theorem autoComplete_sound_witness :
    [97] <+: [97, 98] ∧
      (((TrieNode.new.insert [97, 98] (5 : Nat)).get [97, 98]).isSome = true) :=
  autoComplete_sound (TrieNode.new.insert [97, 98] (5 : Nat)) [97] 4 (by decide)
    [97, 98] (by decide)

/-- C8 — **Autocomplete cap**: `auto_complete(p, n)` returns at most `n` keys
for every trie state, prefix and bound (the cap is global to the call), and
`n = 0` yields the empty sequence. -/
theorem autoComplete_cap {V : Type u} :
    (∀ (t : TrieNode V) (p : List Nat) (n : Nat), (t.autoComplete p n).length ≤ n) ∧
    (∀ (t : TrieNode V) (p : List Nat), t.autoComplete p 0 = []) := by
  constructor
  · intro t p n
    cases hw : t.walk p with
    | none => simp [TrieNode.autoComplete, hw]
    | some nd =>
      simp only [TrieNode.autoComplete, hw]
      exact TrieNode.collectWords_length_le nd p [] n (by simp)
  · intro t p
    cases hw : t.walk p with
    | none => simp [TrieNode.autoComplete, hw]
    | some nd =>
      simp only [TrieNode.autoComplete, hw]
      cases nd with
      | mk val cs => rw [TrieNode.collectWords]; simp
